import Mathlib

/-!
Verification of the k-mer-based approximate membership search engine
(raptor / binning-directories): a shallow embedding of the threshold engine,
the parallel query dispatch, the result formatting, the index archive reader,
the IBF insertion chunking and the hierarchical build, together with theorems
about the specified properties.
-/

namespace Raptor

/-! ### Threshold engine: `src/src/search/precompute_threshold.cpp` -/

/-- The fields of `search_arguments` consumed by `precompute_threshold`.
`threshold_set` models the truthiness test `if (arguments.threshold)` on the manual
threshold fraction; `shape_size` is `arguments.shape.size()` (the span of the shape,
called the k-mer size in the source) and `shape_string` models `arguments.shape.to_string()`
as the bit list, used in the memoisation key. The `double` confidence `tau` is modelled
as an exact rational. -/
structure SearchArguments where
  pattern_size : ℕ
  window_size : ℕ
  shape_size : ℕ
  shape_string : List Bool
  errors : ℕ
  tau : ℚ
  threshold_set : Bool
deriving DecidableEq

/-- The five parameters that make up the memoisation file name
`"binary_p" + pattern_size + "_w" + window_size + "_k" + shape_string + "_e" + errors
 + "_tau" + tau` built in `do_cerealisation_out` and `do_cerealisation_in`. -/
abbrev MemoKey : Type := ℕ × ℕ × List Bool × ℕ × ℚ

/-- The memoisation key of a parameter set. -/
def memoKey (args : SearchArguments) : MemoKey :=
  (args.pattern_size, args.window_size, args.shape_string, args.errors, args.tau)

/-- The directory holding memoisation files, modelled as an association list from
file key to file contents. -/
abbrev MemoStore : Type := List (MemoKey × List ℕ)

/-- `do_cerealisation_in` (lines 38–52): return the table stored under the parameter
key when such a file exists. -/
def do_cerealisation_in (store : MemoStore) (args : SearchArguments) : Option (List ℕ) :=
  (store.find? (fun e => decide (e.1 = memoKey args))).map Prod.snd

/-- `do_cerealisation_out` (lines 26–36): write the table to the file named by the
parameter key. -/
def do_cerealisation_out (store : MemoStore) (args : SearchArguments) (vec : List ℕ) :
    MemoStore :=
  (memoKey args, vec) :: store

/-- The inner accumulation loop of `precompute_threshold` (lines 93–103): starting from
accumulator `acc`, walk the normalised probability values `f i` for the indices in the
list, and at the first index `i` whose running sum reaches `tau`, yield `n - i`
(the `push_back` followed by `break`); `none` when the loop runs out. -/
def accumulate_break (tau : ℚ) (f : ℕ → ℚ) (n : ℕ) : ℚ → List ℕ → Option ℕ
  | _, [] => none
  | acc, i :: idxs =>
    if tau ≤ acc + f i then some (n - i) else accumulate_break tau f n (acc + f i) idxs

/-- The vector `proba_error` built for the iteration `number_of_minimizers = n`
(lines 85–87), before normalisation. The values `pe n i` stand for
`detail::enumerate_all_errors(i, errors, proba)`; the detail functions
(`simple_model`, `enumerate_all_errors`, `destroyed_indirectly_by_error`) are kept
abstract as the parameter `pe`. -/
def proba_error (pe : ℕ → ℕ → ℚ) (n : ℕ) : List ℚ :=
  (List.range n).map (pe n)

/-- One iteration of the outer loop of `precompute_threshold` (lines 78–103): normalise
`proba_error` by its sum and run the accumulation loop against `tau`. -/
def threshold_for (pe : ℕ → ℕ → ℚ) (tau : ℚ) (n : ℕ) : Option ℕ :=
  accumulate_break tau (fun i => pe n i / (proba_error pe n).sum) n 0 (List.range n)

/-- The normalised cumulative error-probability mass after position `i` of the iteration
for `number_of_minimizers = n`: the value of the accumulator `n` in the source after
processing `proba_error[i]`. -/
def norm_cumulative (pe : ℕ → ℕ → ℚ) (n i : ℕ) : ℚ :=
  ((List.range (i + 1)).map (fun m => pe n m / (proba_error pe n).sum)).sum

/-- The sum of `f` over the closed index interval `[i, j]`. -/
def range_sum (f : ℕ → ℚ) (i j : ℕ) : ℚ :=
  ((List.range' i (j + 1 - i)).map f).sum

/-- `minimal_number_of_minimizers` (line 71): `kmers_per_pattern / kmers_per_window` with
`kmers_per_window = window_size - kmer_size + 1` and
`kmers_per_pattern = pattern_size - kmer_size + 1` (lines 68–69). -/
def minimal_number_of_minimizers (args : SearchArguments) : ℕ :=
  (args.pattern_size - args.shape_size + 1) / (args.window_size - args.shape_size + 1)

/-- `maximal_number_of_minimizers` (line 72): `pattern_size - window_size + 1`. -/
def maximal_number_of_minimizers (args : SearchArguments) : ℕ :=
  args.pattern_size - args.window_size + 1

/-- The computation part of `precompute_threshold` (lines 61–104): the closed form for
`window_size == kmer_size`, otherwise the loop over the possible numbers of minimizers
`n ∈ [minimal, maximal]`. `kmer_size` is `arguments.shape.size()`. The `size_t` values
stay in `ℕ`; the claims' hypotheses keep every subtraction non-negative, matching the
C++ unsigned arithmetic. -/
def compute_thresholds (pe : ℕ → ℕ → ℚ) (args : SearchArguments) : List ℕ :=
  let kmer_size := args.shape_size
  if args.window_size = kmer_size then
    [if (args.errors + 1) * kmer_size < args.pattern_size + 1 then
       args.pattern_size + 1 - (args.errors + 1) * kmer_size
     else 0]
  else
    (List.range' (minimal_number_of_minimizers args)
        (maximal_number_of_minimizers args + 1 - minimal_number_of_minimizers args)).filterMap
      (threshold_for pe args.tau)

/-- `precompute_threshold` (lines 54–110) with the file system made explicit: returns the
table together with the resulting state of the memoisation directory. A set manual
threshold returns the empty vector at once (the `||` short-circuit also skips
`do_cerealisation_in`); an existing memoisation file is returned as loaded; otherwise
the table is computed, and persisted only on the general (`window_size != kmer_size`)
path — the closed-form branch returns early, before line 107. -/
def precompute_threshold (pe : ℕ → ℕ → ℚ) (args : SearchArguments) (store : MemoStore) :
    List ℕ × MemoStore :=
  if args.threshold_set then ([], store)
  else
    match do_cerealisation_in store args with
    | some v => (v, store)
    | none =>
      if args.window_size = args.shape_size then (compute_thresholds pe args, store)
      else (compute_thresholds pe args, do_cerealisation_out store args (compute_thresholds pe args))

/-! ### Parallel dispatch: `src/include/raptor/search/do_parallel.hpp` and the worker of
`src/include/raptor/search/search_singular_ibf.hpp` -/

/-- `seqan::hibf::divide_and_ceil`. -/
def divide_and_ceil (dividend divisor : ℕ) : ℕ :=
  (dividend + divisor - 1) / divisor

/-- The `(start, extent)` argument pairs with which the omp overload of `do_parallel`
(lines 22–35) invokes `worker`, one per chunk index `i`. -/
def chunkRanges (num_records threads : ℕ) : List (ℕ × ℕ) :=
  let chunk_size := divide_and_ceil num_records (threads * threads)
  let number_of_chunks := divide_and_ceil num_records chunk_size
  (List.range number_of_chunks).map (fun i =>
    (chunk_size * i,
     if i = number_of_chunks - 1 then num_records - i * chunk_size else chunk_size))

/-- The record indices visited by one `worker(start, end)` call: line 68 of
`search_singular_ibf.hpp` iterates `seqan3::views::slice(records, start, end)`, the
half-open index interval `[start, end)` (for `end < start` seqan3 raises
`std::invalid_argument`; the model yields no records there). -/
def workerRecords (start endPos : ℕ) : List ℕ :=
  List.range' start (endPos - start)

/-- All record indices processed by one `do_parallel(worker, num_records, threads)` call:
`do_parallel` passes `(start, extent)` to the worker. -/
def processedRecords (num_records threads : ℕ) : List ℕ :=
  ((chunkRanges num_records threads).map (fun r => workerRecords r.1 r.2)).flatten

/-- How many of the dispatched `(start, extent)` ranges contain record index `r`. -/
def coveringRanges (ranges : List (ℕ × ℕ)) (r : ℕ) : ℕ :=
  ranges.countP (fun se => decide (se.1 ≤ r) && decide (r < se.1 + se.2))

/-! ### IBF insertion with naive splitting: `src/src/build/hibf/insert_into_ibf.cpp` -/

/-- `seqan::std::views::chunk`: consecutive chunks of `chunk_size` elements, the last one
possibly shorter. The `chunk_size = 0` case never arises at the call site
(`kmers.size() / number_of_bins + 1` is positive). -/
def chunkList : ℕ → List α → List (List α)
  | _, [] => []
  | 0, _ :: _ => []
  | cs + 1, a :: l => ((a :: l).take (cs + 1)) :: chunkList (cs + 1) ((a :: l).drop (cs + 1))
termination_by _ l => l.length
decreasing_by simp; omega

/-- The chunk loop of `insert_into_ibf` (lines 31–38): emplace every value of every chunk
into the bin `bin_index + chunk_number`, incrementing `chunk_number` per chunk. -/
def emplaceChunks (bin_index : ℕ) : ℕ → List (List ℕ) → List (ℕ × ℕ)
  | _, [] => []
  | chunk_number, chunk :: rest =>
    chunk.map (fun value => (value, bin_index + chunk_number)) ++
      emplaceChunks bin_index (chunk_number + 1) rest

/-- `insert_into_ibf` (kmers overload, lines 20–41): the sequence of
`ibf.emplace(value, bin)` calls performed, as `(value, bin)` pairs. `kmers` is the
iteration order of the `robin_hood::unordered_flat_set`. -/
def insert_into_ibf (kmers : List ℕ) (number_of_bins bin_index : ℕ) : List (ℕ × ℕ) :=
  let chunk_size := kmers.length / number_of_bins + 1
  emplaceChunks bin_index 0 (chunkList chunk_size kmers)

/-! ### Index deserialisation: `src/include/raptor/index.hpp` -/

/-- The payload of the `ibf_` member (the seqan::hibf IBF or HIBF body); its contents are
external to src and opaque to the archive reader. -/
structure IbfData where
  payload : ℕ
deriving DecidableEq

/-- One typed field of a cereal binary archive, as written and read by
`raptor_index::CEREAL_SERIALIZE_FUNCTION_NAME`. -/
inductive ArchiveField where
  | u32Field (v : ℕ)
  | u64Field (v : ℕ)
  | shapeField (s : List Bool)
  | u8Field (v : ℕ)
  | boolField (b : Bool)
  | pathsField (p : List (List String))
  | f64Field (v : ℚ)
  | bodyField (b : IbfData)
deriving DecidableEq

/-- A cereal binary archive: the sequence of fields still to be read. -/
abbrev Archive : Type := List ArchiveField

/-- The members of `raptor_index` filled by deserialisation. -/
structure RaptorIndexData where
  window_size : ℕ
  shape : List Bool
  parts : ℕ
  compressed : Bool
  bin_path : List (List String)
  fpr : ℚ
  is_hibf : Bool
  ibf : IbfData
deriving DecidableEq

/-- `raptor_index<>::version`. -/
def raptor_index_version : ℕ := 2

/-- Read a `uint32_t` from the archive; a cereal type mismatch raises. -/
def readU32 : Archive → Except String (ℕ × Archive)
  | .u32Field v :: rest => .ok (v, rest)
  | _ => .error "archive field mismatch"

/-- Read a `uint64_t` from the archive. -/
def readU64 : Archive → Except String (ℕ × Archive)
  | .u64Field v :: rest => .ok (v, rest)
  | _ => .error "archive field mismatch"

/-- Read a `seqan3::shape` (span byte plus bitmask) from the archive. -/
def readShape : Archive → Except String (List Bool × Archive)
  | .shapeField s :: rest => .ok (s, rest)
  | _ => .error "archive field mismatch"

/-- Read a `uint8_t` from the archive. -/
def readU8 : Archive → Except String (ℕ × Archive)
  | .u8Field v :: rest => .ok (v, rest)
  | _ => .error "archive field mismatch"

/-- Read a `bool` from the archive. -/
def readBool : Archive → Except String (Bool × Archive)
  | .boolField b :: rest => .ok (b, rest)
  | _ => .error "archive field mismatch"

/-- Read a `std::vector<std::vector<std::string>>` from the archive. -/
def readPaths : Archive → Except String (List (List String) × Archive)
  | .pathsField p :: rest => .ok (p, rest)
  | _ => .error "archive field mismatch"

/-- Read a `double` from the archive. -/
def readF64 : Archive → Except String (ℚ × Archive)
  | .f64Field v :: rest => .ok (v, rest)
  | _ => .error "archive field mismatch"

/-- Read the IBF or HIBF body from the archive. -/
def readBody : Archive → Except String (IbfData × Archive)
  | .bodyField b :: rest => .ok (b, rest)
  | _ => .error "archive field mismatch"

/-- `raptor_index::CEREAL_SERIALIZE_FUNCTION_NAME` in load mode
(`src/include/raptor/index.hpp` lines 151–180): read and check the version, then inside
the try block read `window_size_`, `shape_`, `parts_`, `compressed_` (rejecting a
compressed index), `bin_path_`, `fpr_`, `is_hibf_` and the body; the catch clause
re-raises failures inside the try block prefixed with `"Cannot read index: "`. -/
def load_index (archive : Archive) : Except String RaptorIndexData :=
  match readU32 archive with
  | .error e => .error e
  | .ok (parsed_version, ar) =>
    if parsed_version = raptor_index_version then
      match readU64 ar with
      | .error e => .error ("Cannot read index: " ++ e)
      | .ok (window_size, ar) =>
        match readShape ar with
        | .error e => .error ("Cannot read index: " ++ e)
        | .ok (shape, ar) =>
          match readU8 ar with
          | .error e => .error ("Cannot read index: " ++ e)
          | .ok (parts, ar) =>
            match readBool ar with
            | .error e => .error ("Cannot read index: " ++ e)
            | .ok (compressed, ar) =>
              if compressed then .error "Cannot read index: Index cannot be compressed."
              else
                match readPaths ar with
                | .error e => .error ("Cannot read index: " ++ e)
                | .ok (bin_path, ar) =>
                  match readF64 ar with
                  | .error e => .error ("Cannot read index: " ++ e)
                  | .ok (fpr, ar) =>
                    match readBool ar with
                    | .error e => .error ("Cannot read index: " ++ e)
                    | .ok (is_hibf, ar) =>
                      match readBody ar with
                      | .error e => .error ("Cannot read index: " ++ e)
                      | .ok (ibf, _) =>
                        .ok ⟨window_size, shape, parts, compressed, bin_path, fpr,
                             is_hibf, ibf⟩
    else .error "Unsupported index version. Check raptor upgrade."

/-! ### Result line formatting and the chunk loop:
`src/include/raptor/search/search_singular_ibf.hpp` -/

/-- `std::to_string` on an unsigned integer: its decimal digit characters. -/
def natChars (n : ℕ) : List Char :=
  if n = 0 then ['0']
  else ((Nat.digits 10 n).map (fun d => Char.ofNat (48 + d))).reverse

/-- The `result_string` construction of the worker (lines 70–115, is_ibf branch): the id,
a tab, every hit bin as digits followed by a comma; then line 112: when the last character
is a comma replace it by a newline, otherwise append a newline. -/
def formatLine (id : List Char) (hits : List ℕ) : List Char :=
  let s := id ++ ['\t'] ++ (hits.map (fun b => natChars b ++ [','])).flatten
  if s.getLast? = some ',' then s.dropLast ++ ['\n'] else s ++ ['\n']

/-- Modelled from the spec (§4.2): `counting_agent.bulk_count(hashes)` of the external
seqan::hibf IBF — bin `j` counts the hashes whose probes all hit bin `j`, abstracted by
the predicate `hits hash j`. -/
def bulk_count (hits : ℕ → ℕ → Bool) (bins : ℕ) (hashes : List ℕ) : List ℕ :=
  (List.range bins).map (fun j => (hashes.filter (fun h => hits h j)).length)

/-- The hit collection loop of the worker (lines 87–97, is_ibf branch): the bins whose
count reaches the threshold, in increasing bin order. -/
def hitBins (counts : List ℕ) (threshold : ℕ) : List ℕ :=
  counts.enum.filterMap (fun c => if threshold ≤ c.2 then some c.1 else none)

/-- One record's output line in the worker (lines 68–118, is_ibf branch): take the
record's minimiser sketch, look up the threshold for the minimiser count, bulk-count,
collect the hits and format the line. `thresholder` models
`raptor::threshold::threshold::get` (not under src). -/
def workerLine (thresholder : ℕ → ℕ) (hits : ℕ → ℕ → Bool) (bins : ℕ)
    (id : List Char) (minimiser : List ℕ) : List Char :=
  formatLine id (hitBins (bulk_count hits bins minimiser) (thresholder minimiser.length))

/-- Comma-separated rendering of a list of character chunks, with separators only
between chunks (no trailing separator): the format the spec prescribes for the bin
list of a result line. -/
def commaSeparated : List (List Char) → List Char
  | [] => []
  | [x] => x
  | x :: y :: rest => x ++ [','] ++ commaSeparated (y :: rest)

/-- One line of the synchronized output file: the header or a result line. -/
inductive OutLine where
  | header
  | result (line : List Char)
deriving DecidableEq

/-- The result lines pushed while processing one chunk of records (each record is an
`(id, minimiser sketch)` pair); the inter-worker interleaving only permutes them and is
irrelevant to the header. -/
def chunkLines (thresholder : ℕ → ℕ) (hits : ℕ → ℕ → Bool) (bins : ℕ)
    (records : List (List Char × List ℕ)) : List OutLine :=
  records.map (fun r => OutLine.result (workerLine thresholder hits bins r.1 r.2))

/-- The chunk loop of `search_singular_ibf` (lines 134–145), with the function-local
`static bool header_written = write_header()` modelled as a once-flag threaded through
the loop: the first iteration that reaches the statement writes the header, later
iterations do not. -/
def search_run_loop (thresholder : ℕ → ℕ) (hits : ℕ → ℕ → Bool) (bins : ℕ) :
    List (List (List Char × List ℕ)) → Bool → List OutLine
  | [], _ => []
  | c :: cs, header_written =>
    (if header_written then [] else [OutLine.header]) ++
      chunkLines thresholder hits bins c ++
      search_run_loop thresholder hits bins cs true

/-- A whole search run: the chunk loop entered with the header not yet written. A query
file with no records produces no chunks and the loop body never runs. -/
def search_run (thresholder : ℕ → ℕ) (hits : ℕ → ℕ → Bool) (bins : ℕ)
    (chunks : List (List (List Char × List ℕ))) : List OutLine :=
  search_run_loop thresholder hits bins chunks false

/-! ### Hierarchical build: `src/src/build/hibf/hierarchical_build.cpp` -/

/-- One user-bin record of the layout, restricted to the fields `hierarchical_build`
reads: `bin_indices.back()`, `number_of_bins.back()` and the user bin id that
`update_user_bins` assigns to its split range. -/
structure LayoutRecord where
  bin_index : ℕ
  number_of_bins : ℕ
  user_bin : ℕ
deriving DecidableEq

/-- A node of the layout tree (`lemon::ListDigraph::Node` together with its `node_data`):
the technical bin count, the max bin index, the favourite child (present when the max bin
is a merged bin), the other merged-bin children paired with their bin index in this IBF,
and the remaining split records (with the max record in front when there is no favourite
child). -/
inductive BuildNode where
  | mk (number_of_technical_bins : ℕ) (max_bin_index : ℕ)
       (favourite_child : Option BuildNode)
       (children : List (ℕ × BuildNode))
       (remaining_records : List LayoutRecord)

/-- The technical bin count of the node. -/
def BuildNode.number_of_technical_bins : BuildNode → ℕ
  | .mk n _ _ _ _ => n

/-- The max bin index of the node. -/
def BuildNode.max_bin_index : BuildNode → ℕ
  | .mk _ m _ _ _ => m

/-- The favourite child of the node. -/
def BuildNode.favourite_child : BuildNode → Option BuildNode
  | .mk _ _ f _ _ => f

/-- The merged-bin children of the node other than the favourite child. -/
def BuildNode.children : BuildNode → List (ℕ × BuildNode)
  | .mk _ _ _ c _ => c

/-- The remaining split records of the node. -/
def BuildNode.remaining_records : BuildNode → List LayoutRecord
  | .mk _ _ _ _ r => r

/-- The slice of `build_data` that `hierarchical_build` updates: the counter behind
`data.request_ibf_idx()` and, per allocated IBF position, the stored pair of
`data.hibf.next_ibf_id[pos]` and `data.hibf.user_bins.bin_indices_of_ibf(pos)`. -/
structure BuildState where
  counter : ℕ
  stored : List (ℕ × (List ℤ × List ℤ))
deriving DecidableEq

/-- The arrays stored for IBF position `pos`. -/
def BuildState.lookup (s : BuildState) (pos : ℕ) : Option (List ℤ × List ℤ) :=
  (s.stored.find? (fun e => decide (e.1 = pos))).map Prod.snd

/-- Modelled from the spec: `update_user_bins` (absent from src; §4.4 "update
user_bin_index" for the record's split range) performs
`std::fill_n(filename_indices.begin() + record.bin_indices.back(),
record.number_of_bins.back(), user_bin_id)`, written positionally over the vector. -/
def update_user_bins (filename_indices : List ℤ) (record : LayoutRecord) : List ℤ :=
  (List.range filename_indices.length).map (fun t =>
    if record.bin_index ≤ t ∧ t < record.bin_index + record.number_of_bins
    then (record.user_bin : ℤ) else filename_indices.getD t 0)

mutual

/-- `hierarchical_build` (lines 26–108), restricted to the state the claim is about: the
IBF position counter and the per-position `ibf_positions` (`next_ibf_id`) and
`filename_indices` (user bin) arrays; the k-mer sets and the IBF bit matrices are not
tracked. Position allocation (`data.request_ibf_idx()`, absent from src) hands out
consecutive counter values. When the favourite child exists the max bin is a merged bin
and the remaining records are processed from index 0 after the children; otherwise the
max record `remaining_records[0]` is processed during initialisation and the loop starts
at index 1. -/
def hierarchical_build : BuildNode → BuildState → Bool → ℕ × BuildState
  | .mk ntb max_bin_index (some fc) children recs, s, _ =>
    let ibf_pos := s.counter
    let r := hierarchical_build fc ⟨s.counter + 1, s.stored⟩ false
    let ibf_positions1 := (List.replicate ntb (ibf_pos : ℤ)).set max_bin_index (r.1 : ℤ)
    let lc := loop_over_children children ibf_positions1 r.2
    let filename_indices2 := recs.foldl update_user_bins (List.replicate ntb (-1 : ℤ))
    (ibf_pos, ⟨lc.2.counter, (ibf_pos, (lc.1, filename_indices2)) :: lc.2.stored⟩)
  | .mk ntb _ none children recs, s, _ =>
    let ibf_pos := s.counter
    let filename_indices1 :=
      update_user_bins (List.replicate ntb (-1 : ℤ)) (recs.headD ⟨0, 0, 0⟩)
    let lc := loop_over_children children (List.replicate ntb (ibf_pos : ℤ))
                ⟨s.counter + 1, s.stored⟩
    let filename_indices2 := (recs.drop 1).foldl update_user_bins filename_indices1
    (ibf_pos, ⟨lc.2.counter, (ibf_pos, (lc.1, filename_indices2)) :: lc.2.stored⟩)

/-- Modelled from the spec: `loop_over_children` (only its declaration is under src;
§4.4 "for each remaining child merge bin c: child_p ← build(child_kmers, c, false);
ibf_positions[c.bin_in_parent] ← child_p"). -/
def loop_over_children : List (ℕ × BuildNode) → List ℤ → BuildState →
    List ℤ × BuildState
  | [], ibf_positions, s => (ibf_positions, s)
  | (bin, child) :: rest, ibf_positions, s =>
    let r := hierarchical_build child s false
    loop_over_children rest (ibf_positions.set bin (r.1 : ℤ)) r.2

end

/-- Technical bin `t` of the node is a split (leaf) bin: it lies in the split range of
one of the node's records. -/
def BuildNode.isSplit (node : BuildNode) (t : ℕ) : Prop :=
  ∃ r ∈ node.remaining_records, r.bin_index ≤ t ∧ t < r.bin_index + r.number_of_bins

/-- The technical bins of the node that hold merged bins: the max bin when the favourite
child exists, and each further child's bin index in this IBF. -/
def BuildNode.mergeBins (node : BuildNode) : List ℕ :=
  (match node.favourite_child with
   | some _ => [node.max_bin_index]
   | none => []) ++ node.children.map Prod.fst

/-- Well-formedness of one layout node: merged bins and split ranges stay inside the bin
count, every technical bin is covered, no bin is both split and merged, and a node whose
max bin is not merged has its max record in front of a non-empty record list. -/
def WFnode (node : BuildNode) : Prop :=
  (∀ b ∈ node.mergeBins, b < node.number_of_technical_bins) ∧
  (∀ r ∈ node.remaining_records,
    r.bin_index + r.number_of_bins ≤ node.number_of_technical_bins) ∧
  (∀ t, t < node.number_of_technical_bins → node.isSplit t ∨ t ∈ node.mergeBins) ∧
  (∀ t, t < node.number_of_technical_bins → ¬(node.isSplit t ∧ t ∈ node.mergeBins)) ∧
  (node.favourite_child = none → node.remaining_records ≠ [])

/-- Well-formedness of a layout tree. -/
inductive WFtree : BuildNode → Prop where
  | mk : ∀ node : BuildNode, WFnode node →
      (∀ fc, node.favourite_child = some fc → WFtree fc) →
      (∀ c ∈ node.children, WFtree c.2) →
      WFtree node

/-- Invariant of the build state: every stored position was allocated, so it is below
the counter. -/
def StateWF (s : BuildState) : Prop :=
  ∀ e ∈ s.stored, e.1 < s.counter

/-- The invariant established by one `hierarchical_build` invocation: the returned
position is the counter value at entry, the counter grows, the state invariant is kept,
entries at earlier positions are untouched, and the arrays stored for the new position
satisfy the split/merge characterisation — `next_ibf_id` entries equal the own position
exactly on split bins, user-bin entries are non-negative exactly on split bins and `-1`
on merge bins, and merge bins point at a stored child IBF built below (at a larger
position). -/
def BuildOK (node : BuildNode) (s : BuildState) (is_root : Bool) : Prop :=
  (hierarchical_build node s is_root).1 = s.counter ∧
  s.counter < (hierarchical_build node s is_root).2.counter ∧
  StateWF (hierarchical_build node s is_root).2 ∧
  (∀ l, l < s.counter →
    (hierarchical_build node s is_root).2.lookup l = s.lookup l) ∧
  ∃ nexts fis,
    (hierarchical_build node s is_root).2.lookup s.counter = some (nexts, fis) ∧
    nexts.length = node.number_of_technical_bins ∧
    fis.length = node.number_of_technical_bins ∧
    ∀ t < node.number_of_technical_bins,
      (nexts.getD t 0 = (s.counter : ℤ) ↔ node.isSplit t) ∧
      ((0 : ℤ) ≤ fis.getD t 0 ↔ node.isSplit t) ∧
      (¬node.isSplit t →
        fis.getD t 0 = -1 ∧
        ∃ cp : ℕ, nexts.getD t 0 = (cp : ℤ) ∧ s.counter < cp ∧
          ((hierarchical_build node s is_root).2.lookup cp).isSome)

instance (o : Option BuildNode) : Decidable (o = none) :=
  match o with
  | none => isTrue rfl
  | some _ => isFalse (fun h => Option.noConfusion h)

instance (node : BuildNode) (t : ℕ) : Decidable (node.isSplit t) := by
  unfold BuildNode.isSplit
  infer_instance

instance (node : BuildNode) : Decidable (WFnode node) := by
  unfold WFnode
  infer_instance

instance (s : BuildState) : Decidable (StateWF s) := by
  unfold StateWF
  infer_instance

/-- A small concrete layout node: two technical bins split from one user bin. -/
def sample_child (ub : ℕ) : BuildNode :=
  .mk 2 0 none [] [⟨0, 2, ub⟩]

/-- A small concrete layout tree: a root with one split record over bin 0 and two
merged bins holding single-record child IBFs. -/
def sample_root : BuildNode :=
  .mk 3 0 none [(1, sample_child 7), (2, sample_child 8)] [⟨0, 1, 5⟩]

/-! ## Theorems -/

/-- C1: the `do_parallel` dispatch does partition a chunk's records into at most
`threads × threads` sub-chunks whose `(start, extent)` ranges cover every record exactly
once, but `do_parallel` passes `(start, extent)` to a worker whose second parameter is an
end position in `seqan3::views::slice`, so sub-chunks after the first process the wrong
interval: at `num_records = 4` and `threads = 2` only record 0 is processed, while
`threads = 1` processes records 0–3, contradicting thread-count independence of the
output line set. -/
theorem do_parallel_slice_mismatch :
    (chunkRanges 4 2).length ≤ 2 * 2 ∧
    (∀ r < 4, coveringRanges (chunkRanges 4 2) r = 1) ∧
    processedRecords 4 1 = [0, 1, 2, 3] ∧
    processedRecords 4 2 = [0] := by
  decide

/-- C2: with the window size equal to the k-mer size, no manual threshold and no
memoisation file, `precompute_threshold` returns the single-element table
`[max(0, p + 1 - (e + 1)·k)]`. -/
theorem precompute_threshold_window_eq_kmer (pe : ℕ → ℕ → ℚ) (args : SearchArguments)
    (store : MemoStore) (hth : args.threshold_set = false)
    (hmemo : do_cerealisation_in store args = none)
    (hwk : args.window_size = args.shape_size) :
    (precompute_threshold pe args store).1 =
      [if (args.errors + 1) * args.shape_size < args.pattern_size + 1 then
         args.pattern_size + 1 - (args.errors + 1) * args.shape_size
       else 0] := by
  simp [precompute_threshold, hth, hmemo, compute_thresholds, hwk]

/-- Witness for C2 at `p = 15`, `w = k = 5`, `e = 1`: the table is `[6]`. -/
theorem precompute_threshold_window_eq_kmer_witness :
    (precompute_threshold (fun _ _ => 0) ⟨15, 5, 5, [true], 1, 1/2, false⟩ []).1 =
      [if (1 + 1) * 5 < 15 + 1 then 15 + 1 - (1 + 1) * 5 else 0] :=
  precompute_threshold_window_eq_kmer (fun _ _ => 0) ⟨15, 5, 5, [true], 1, 1/2, false⟩ []
    rfl rfl rfl

/-- C10: a set manual threshold fraction makes `precompute_threshold` return the empty
table and leave the memoisation directory untouched (the short-circuit `||` also skips
the read), for all other parameters. -/
theorem precompute_threshold_manual_threshold (pe : ℕ → ℕ → ℚ) (args : SearchArguments)
    (store : MemoStore) (hth : args.threshold_set = true) :
    precompute_threshold pe args store = ([], store) := by
  simp [precompute_threshold, hth]

/-- Witness for C10 at a concrete parameter set and non-empty store. -/
theorem precompute_threshold_manual_threshold_witness :
    precompute_threshold (fun _ _ => 1) ⟨100, 23, 19, [true], 2, 99/100, true⟩
        [((1, 2, [], 3, 1/2), [4])] =
      ([], [((1, 2, [], 3, 1/2), [4])]) :=
  precompute_threshold_manual_threshold (fun _ _ => 1) ⟨100, 23, 19, [true], 2, 99/100, true⟩
    [((1, 2, [], 3, 1/2), [4])] rfl

/-- C4 fails as stated: on the closed-form path (`window_size = kmer_size`) the computed
table is returned without being persisted — at `p = 15`, `w = k = 5`, `e = 1` the
memoisation directory is still empty after the call, so a later call recomputes instead
of loading. -/
theorem precompute_threshold_no_persist_on_closed_form :
    (precompute_threshold (fun _ _ => 0) ⟨15, 5, 5, [true], 1, 1/2, false⟩ []).2 = [] := by
  rfl

/-- C4 (amended): on the general path (`window_size ≠ kmer_size`), with no manual
threshold and no memoisation file, `precompute_threshold` persists the computed table
under the key made of exactly the five parameters
`(pattern_size, window_size, shape, errors, tau)`, and a second call with the same
parameters takes the load path: it returns the persisted table unchanged and leaves the
directory unchanged. -/
theorem precompute_threshold_memo_round_trip (pe : ℕ → ℕ → ℚ) (args : SearchArguments)
    (store : MemoStore) (hth : args.threshold_set = false)
    (hmemo : do_cerealisation_in store args = none)
    (hwk : args.window_size ≠ args.shape_size) :
    (precompute_threshold pe args store).2 =
      (memoKey args, (precompute_threshold pe args store).1) :: store ∧
    do_cerealisation_in (precompute_threshold pe args store).2 args =
      some (precompute_threshold pe args store).1 ∧
    precompute_threshold pe args (precompute_threshold pe args store).2 =
      ((precompute_threshold pe args store).1, (precompute_threshold pe args store).2) := by
  have hfind : List.find? (fun e => decide (e.1 = memoKey args)) store = none := by
    simpa [do_cerealisation_in] using hmemo
  refine ⟨?_, ?_, ?_⟩ <;>
    simp [precompute_threshold, hth, if_neg hwk, do_cerealisation_out,
      do_cerealisation_in, hfind, List.find?]

/-- Witness for C4's amended round trip at `p = 10`, `w = 5`, `k = 3`, `e = 1`,
`tau = 1/2`. -/
theorem precompute_threshold_memo_round_trip_witness :
    (precompute_threshold (fun _ _ => 1) ⟨10, 5, 3, [true], 1, 1/2, false⟩ []).2 =
      (memoKey ⟨10, 5, 3, [true], 1, 1/2, false⟩,
        (precompute_threshold (fun _ _ => 1) ⟨10, 5, 3, [true], 1, 1/2, false⟩ []).1) :: [] ∧
    do_cerealisation_in
        (precompute_threshold (fun _ _ => 1) ⟨10, 5, 3, [true], 1, 1/2, false⟩ []).2
        ⟨10, 5, 3, [true], 1, 1/2, false⟩ =
      some (precompute_threshold (fun _ _ => 1) ⟨10, 5, 3, [true], 1, 1/2, false⟩ []).1 ∧
    precompute_threshold (fun _ _ => 1) ⟨10, 5, 3, [true], 1, 1/2, false⟩
        (precompute_threshold (fun _ _ => 1) ⟨10, 5, 3, [true], 1, 1/2, false⟩ []).2 =
      ((precompute_threshold (fun _ _ => 1) ⟨10, 5, 3, [true], 1, 1/2, false⟩ []).1,
        (precompute_threshold (fun _ _ => 1) ⟨10, 5, 3, [true], 1, 1/2, false⟩ []).2) :=
  precompute_threshold_memo_round_trip (fun _ _ => 1) ⟨10, 5, 3, [true], 1, 1/2, false⟩ []
    rfl rfl (by decide)

/-- C5: the archive reader fails on any stored version other than 2; it fails when the
stored compressed flag is true; and on a version-2 archive holding, in order,
`window_size`, `shape`, `parts`, `compressed = false`, `bin_path`, `fpr`, `is_hibf` and
the body, it succeeds and fills exactly those members. -/
theorem load_index_version_and_compressed (v w p : ℕ) (s : List Bool)
    (bp : List (List String)) (fpr : ℚ) (ih : Bool) (b : IbfData) (rest : Archive)
    (hv : v ≠ 2) :
    load_index (.u32Field v :: rest) =
      .error "Unsupported index version. Check raptor upgrade." ∧
    load_index ([.u32Field 2, .u64Field w, .shapeField s, .u8Field p,
        .boolField true] ++ rest) =
      .error "Cannot read index: Index cannot be compressed." ∧
    load_index ([.u32Field 2, .u64Field w, .shapeField s, .u8Field p, .boolField false,
        .pathsField bp, .f64Field fpr, .boolField ih, .bodyField b] ++ rest) =
      .ok ⟨w, s, p, false, bp, fpr, ih, b⟩ := by
  refine ⟨?_, rfl, rfl⟩
  simp [load_index, readU32, raptor_index_version, hv]

/-- Witness for C5 at version 7 and concrete field values. -/
theorem load_index_version_and_compressed_witness :
    load_index [.u32Field 7] =
      .error "Unsupported index version. Check raptor upgrade." ∧
    load_index ([.u32Field 2, .u64Field 23, .shapeField [true], .u8Field 1,
        .boolField true] ++ []) =
      .error "Cannot read index: Index cannot be compressed." ∧
    load_index ([.u32Field 2, .u64Field 23, .shapeField [true], .u8Field 1,
        .boolField false, .pathsField [["bin1.fa"]], .f64Field (5/100), .boolField true,
        .bodyField ⟨0⟩] ++ []) =
      .ok ⟨23, [true], 1, false, [["bin1.fa"]], 5/100, true, ⟨0⟩⟩ :=
  load_index_version_and_compressed 7 23 1 [true] [["bin1.fa"]] (5/100) true ⟨0⟩ []
    (by decide)

theorem chunkList_flatten_of_le {α : Type _} (cs : ℕ) :
    ∀ (k : ℕ) (l : List α), l.length ≤ k → (chunkList (cs + 1) l).flatten = l := by
  intro k
  induction k with
  | zero =>
    intro l hl
    have h0 : l = [] := List.eq_nil_of_length_eq_zero (Nat.le_zero.mp hl)
    subst h0
    simp [chunkList]
  | succ k ih =>
    intro l hl
    match l with
    | [] => simp [chunkList]
    | a :: l =>
      rw [chunkList, List.flatten_cons, ih _ ?_, List.take_append_drop]
      simp only [List.length_drop, List.length_cons] at hl ⊢
      omega

/-- Splitting into chunks of a positive size and re-flattening restores the list. -/
theorem chunkList_flatten {α : Type _} (cs : ℕ) (hcs : cs ≠ 0) (l : List α) :
    (chunkList cs l).flatten = l := by
  obtain ⟨m, rfl⟩ : ∃ m, cs = m + 1 := ⟨cs - 1, by omega⟩
  exact chunkList_flatten_of_le m l.length l le_rfl

/-- A list of length at most `(cs + 1) * s` splits into at most `s` chunks. -/
theorem chunkList_length_le {α : Type _} (cs : ℕ) :
    ∀ (s : ℕ) (l : List α), l.length ≤ (cs + 1) * s → (chunkList (cs + 1) l).length ≤ s := by
  intro s
  induction s with
  | zero =>
    intro l hl
    have h0 : l = [] := by
      simp only [Nat.mul_zero, Nat.le_zero] at hl
      exact List.eq_nil_of_length_eq_zero hl
    subst h0
    simp [chunkList]
  | succ s ih =>
    intro l hl
    match l with
    | [] => simp [chunkList]
    | a :: l =>
      rw [chunkList]
      simp only [List.length_cons]
      have hd : ((a :: l).drop (cs + 1)).length ≤ (cs + 1) * s := by
        have h1 := Nat.sub_le_sub_right hl (cs + 1)
        rw [Nat.mul_succ, Nat.add_sub_cancel] at h1
        simpa [List.length_drop] using h1
      exact Nat.succ_le_succ (ih _ hd)

/-- Any natural number is at most `(n / s + 1) * s` for positive `s`. -/
theorem le_div_succ_mul (n s : ℕ) (hs : 1 ≤ s) : n ≤ (n / s + 1) * s := by
  have h2 : n % s < s := Nat.mod_lt _ hs
  calc n = s * (n / s) + n % s := (Nat.div_add_mod n s).symm
  _ ≤ s * (n / s) + s := by omega
  _ = (n / s + 1) * s := by ring

theorem emplaceChunks_map_fst (b : ℕ) (chunks : List (List ℕ)) :
    ∀ cn : ℕ, (emplaceChunks b cn chunks).map Prod.fst = chunks.flatten := by
  induction chunks with
  | nil => intro cn; simp [emplaceChunks]
  | cons c rest ih => intro cn; simp [emplaceChunks, ih, Function.comp_def]

theorem emplaceChunks_bins (b : ℕ) (chunks : List (List ℕ)) :
    ∀ (cn : ℕ) (p : ℕ × ℕ), p ∈ emplaceChunks b cn chunks →
      b + cn ≤ p.2 ∧ p.2 < b + cn + chunks.length := by
  induction chunks with
  | nil => intro cn p hp; simp [emplaceChunks] at hp
  | cons c rest ih =>
    intro cn p hp
    simp only [emplaceChunks, List.mem_append] at hp
    rcases hp with hp | hp
    · obtain ⟨v, _, rfl⟩ := List.mem_map.mp hp
      simp only [List.length_cons]
      omega
    · have := ih (cn + 1) p hp
      simp only [List.length_cons]
      omega

/-- C8: for a non-empty k-mer set and at least one target bin, `insert_into_ibf`
emplaces each k-mer exactly once, every target bin lies in
`[bin_index, bin_index + number_of_bins)`, and the chunking with size
`kmers.size() / number_of_bins + 1` yields at most `number_of_bins` chunks, so the
assertion `chunk_number < number_of_bins` cannot fire. -/
theorem insert_into_ibf_naive_split (kmers : List ℕ) (number_of_bins bin_index : ℕ)
    (hk : kmers ≠ []) (hb : 1 ≤ number_of_bins) :
    (insert_into_ibf kmers number_of_bins bin_index).map Prod.fst = kmers ∧
    (∀ p ∈ insert_into_ibf kmers number_of_bins bin_index,
      bin_index ≤ p.2 ∧ p.2 < bin_index + number_of_bins) ∧
    (chunkList (kmers.length / number_of_bins + 1) kmers).length ≤ number_of_bins := by
  have hlen :
      (chunkList (kmers.length / number_of_bins + 1) kmers).length ≤ number_of_bins :=
    chunkList_length_le _ _ _ (le_div_succ_mul _ _ hb)
  refine ⟨?_, ?_, hlen⟩
  · simp only [insert_into_ibf]
    rw [emplaceChunks_map_fst,
      chunkList_flatten (kmers.length / number_of_bins + 1) (Nat.succ_ne_zero _) kmers]
  · intro p hp
    simp only [insert_into_ibf] at hp
    have := emplaceChunks_bins bin_index _ 0 p hp
    omega

/-- Witness for C8 with five k-mers split over two bins starting at bin 7. -/
theorem insert_into_ibf_naive_split_witness :
    ([10, 20, 30, 40, 50] ≠ ([] : List ℕ)) ∧ 1 ≤ 2 ∧
    ((insert_into_ibf [10, 20, 30, 40, 50] 2 7).map Prod.fst = [10, 20, 30, 40, 50] ∧
     (∀ p ∈ insert_into_ibf [10, 20, 30, 40, 50] 2 7, 7 ≤ p.2 ∧ p.2 < 7 + 2) ∧
     (chunkList ([10, 20, 30, 40, 50].length / 2 + 1) [10, 20, 30, 40, 50]).length ≤ 2) :=
  ⟨by decide, by decide,
    insert_into_ibf_naive_split [10, 20, 30, 40, 50] 2 7 (by decide) (by decide)⟩

/-- C7 fails as stated for a run whose chunk loop iterates zero times (an empty query
file): no header line is written at all. -/
theorem search_header_missing_without_chunks :
    (search_run (fun _ => 1) (fun _ _ => false) 1 []).count OutLine.header = 0 :=
  rfl

/-- With the once-flag already set, later chunk iterations emit no header line. -/
theorem search_run_loop_no_header (thresholder : ℕ → ℕ) (hits : ℕ → ℕ → Bool) (bins : ℕ) :
    ∀ chunks, OutLine.header ∉ search_run_loop thresholder hits bins chunks true := by
  intro chunks
  induction chunks with
  | nil => simp [search_run_loop]
  | cons c cs ih => simp [search_run_loop, chunkLines, ih]

/-- C7 (amended): in a run that processes at least one chunk, the header line is written
exactly once, before every query-result line, however many chunks follow. -/
theorem search_header_once (thresholder : ℕ → ℕ) (hits : ℕ → ℕ → Bool) (bins : ℕ)
    (chunks : List (List (List Char × List ℕ))) (hc : chunks ≠ []) :
    ∃ rest, search_run thresholder hits bins chunks = OutLine.header :: rest ∧
      OutLine.header ∉ rest := by
  match chunks with
  | c :: cs =>
    refine ⟨chunkLines thresholder hits bins c ++
      search_run_loop thresholder hits bins cs true, ?_, ?_⟩
    · simp [search_run, search_run_loop]
    · simp [chunkLines, search_run_loop_no_header]

/-- Witness for C7's amended claim on a two-chunk run. -/
theorem search_header_once_witness :
    ([[(['q'], [1])], [(['r'], ([] : List ℕ))]] ≠
        ([] : List (List (List Char × List ℕ)))) ∧
    ∃ rest, search_run (fun _ => 1) (fun _ _ => false) 1
        [[(['q'], [1])], [(['r'], ([] : List ℕ))]] = OutLine.header :: rest ∧
      OutLine.header ∉ rest :=
  ⟨by decide, search_header_once _ _ _ _ (by decide)⟩

/-- Flattening digit chunks each followed by a comma equals the comma-separated chunks
followed by one trailing comma. -/
theorem flatten_append_comma (xs : List (List Char)) (hx : xs ≠ []) :
    (xs.map (fun x => x ++ [','])).flatten = commaSeparated xs ++ [','] := by
  induction xs with
  | nil => exact absurd rfl hx
  | cons x rest ih =>
    match rest with
    | [] => simp [commaSeparated]
    | y :: rest2 =>
      rw [List.map_cons, List.flatten_cons, ih (by simp)]
      simp [commaSeparated]

theorem formatLine_nil (id : List Char) : formatLine id [] = id ++ ['\t', '\n'] := by
  simp only [formatLine, List.map_nil, List.flatten_nil, List.append_nil]
  rw [List.getLast?_concat, if_neg (by decide)]
  simp

theorem formatLine_cons (id : List Char) (hs : List ℕ) (h : hs ≠ []) :
    formatLine id hs = id ++ ['\t'] ++ commaSeparated (hs.map natChars) ++ ['\n'] := by
  have hmm : (hs.map (fun b => natChars b ++ [','])).flatten =
      commaSeparated (hs.map natChars) ++ [','] := by
    rw [← flatten_append_comma _ (by simpa using h), List.map_map]
    rfl
  simp only [formatLine, hmm, ← List.append_assoc]
  rw [List.getLast?_concat, if_pos rfl, List.dropLast_concat]

theorem hitBins_nil_of_lt (counts : List ℕ) (threshold : ℕ)
    (h : ∀ c ∈ counts, c < threshold) : hitBins counts threshold = [] := by
  unfold hitBins
  rw [List.filterMap_eq_nil_iff]
  intro c hc
  have hmem : c.2 ∈ counts := by
    have := List.mem_enum_iff_getElem?.mp hc
    exact List.getElem?_mem this
  simp [Nat.not_le.mpr (h _ hmem)]

/-- C6: a record with no minimisers (given that the threshold for a zero count is at
least one, as the threshold engine guarantees) and, likewise, any record with an empty
hit set produce the line `id\t\n` — id, tab, newline, nothing else — and a non-empty hit
set renders as comma-separated bin ids with no trailing comma before the newline. -/
theorem worker_line_empty_and_separators (thresholder : ℕ → ℕ) (hits : ℕ → ℕ → Bool)
    (bins : ℕ) (id : List Char) (hs : List ℕ) (hth : 1 ≤ thresholder 0) :
    workerLine thresholder hits bins id [] = id ++ ['\t', '\n'] ∧
    (hs = [] → formatLine id hs = id ++ ['\t', '\n']) ∧
    (hs ≠ [] →
      formatLine id hs = id ++ ['\t'] ++ commaSeparated (hs.map natChars) ++ ['\n']) := by
  refine ⟨?_, fun h => h ▸ formatLine_nil id, fun h => formatLine_cons id hs h⟩
  unfold workerLine
  rw [hitBins_nil_of_lt _ _ ?_, formatLine_nil]
  intro c hc
  unfold bulk_count at hc
  obtain ⟨j, _, rfl⟩ := List.mem_map.mp hc
  simp only [List.filter_nil, List.length_nil]
  omega

/-- Witness for C6 with a concrete thresholder, id and the hit sets `[]` and `[0, 12]`. -/
theorem worker_line_empty_and_separators_witness :
    1 ≤ 1 ∧
    (workerLine (fun _ => 1) (fun _ _ => true) 3 ['q', '1'] [] = ['q', '1'] ++ ['\t', '\n'] ∧
     (([0, 12] : List ℕ) = [] → formatLine ['q', '1'] [0, 12] = ['q', '1'] ++ ['\t', '\n']) ∧
     (([0, 12] : List ℕ) ≠ [] →
       formatLine ['q', '1'] [0, 12] =
         ['q', '1'] ++ ['\t'] ++ commaSeparated ([0, 12].map natChars) ++ ['\n'])) :=
  ⟨le_refl 1,
    worker_line_empty_and_separators (fun _ => 1) (fun _ _ => true) 3 ['q', '1'] [0, 12]
      (le_refl 1)⟩

theorem find?_congr_mem {α : Type _} (p q : α → Bool) :
    ∀ l : List α, (∀ a ∈ l, p a = q a) → l.find? p = l.find? q := by
  intro l
  induction l with
  | nil => intro _; rfl
  | cons a l ih =>
    intro h
    by_cases hp : p a
    · rw [List.find?_cons_of_pos _ hp, List.find?_cons_of_pos _ (h a (by simp) ▸ hp)]
    · rw [List.find?_cons_of_neg _ hp,
        List.find?_cons_of_neg _ (h a (by simp) ▸ hp), ih (fun a ha => h a (by simp [ha]))]

theorem range_sum_self (f : ℕ → ℚ) (i : ℕ) : range_sum f i i = f i := by
  simp [range_sum, List.range'_succ]

theorem range_sum_split (f : ℕ → ℚ) (i j : ℕ) (h : i ≤ j) :
    range_sum f i j = f i + range_sum f (i + 1) j := by
  unfold range_sum
  rw [show j + 1 - i = (j - i) + 1 by omega, List.range'_succ]
  rw [show j + 1 - (i + 1) = j - i by omega]
  simp

/-- The accumulation loop is the first index in the remaining range whose closed prefix
sum (offset by the accumulator) reaches `tau`, mapped through `n - ·`. -/
theorem accumulate_break_eq_find (tau : ℚ) (f : ℕ → ℚ) (n : ℕ) :
    ∀ (m i : ℕ) (acc : ℚ),
      accumulate_break tau f n acc (List.range' i m) =
        ((List.range' i m).find? (fun j => decide (tau ≤ acc + range_sum f i j))).map
          (fun j => n - j) := by
  intro m
  induction m with
  | zero => intro i acc; rfl
  | succ m ih =>
    intro i acc
    rw [List.range'_succ, accumulate_break]
    by_cases h : tau ≤ acc + f i
    · rw [if_pos h, List.find?_cons_of_pos _ (by simp [range_sum_self, h])]
      rfl
    · rw [if_neg h, List.find?_cons_of_neg _ (by simp [range_sum_self, h]), ih]
      apply congrArg (Option.map _)
      apply find?_congr_mem
      intro j hj
      have hij : i + 1 ≤ j := (List.mem_range'_1.mp hj).1
      rw [range_sum_split f i j (by omega), ← add_assoc]

theorem find?_range'_min (p : ℕ → Bool) :
    ∀ (m i j : ℕ), (List.range' i m).find? p = some j →
      i ≤ j ∧ j < i + m ∧ p j = true ∧ ∀ x, i ≤ x → x < j → p x = false := by
  intro m
  induction m with
  | zero => intro i j h; simp at h
  | succ m ih =>
    intro i j h
    rw [List.range'_succ] at h
    by_cases hp : p i
    · rw [List.find?_cons_of_pos _ hp] at h
      obtain rfl : i = j := by simpa using h
      exact ⟨le_rfl, by omega, hp, fun x hx1 hx2 => absurd hx1 (by omega)⟩
    · rw [List.find?_cons_of_neg _ hp] at h
      obtain ⟨h1, h2, h3, h4⟩ := ih (i + 1) j h
      refine ⟨by omega, by omega, h3, ?_⟩
      intro x hx1 hx2
      rcases Nat.eq_or_lt_of_le hx1 with rfl | hlt
      · exact Bool.eq_false_iff.mpr hp
      · exact h4 x hlt hx2

theorem list_sum_map_div (l : List ℕ) (f : ℕ → ℚ) (S : ℚ) :
    (l.map (fun i => f i / S)).sum = (l.map f).sum / S := by
  induction l with
  | nil => simp
  | cons a l ih => simp [ih, add_div]

/-- With a non-zero total, the normalised masses over all of `[0, n)` sum to one. -/
theorem norm_total (pe : ℕ → ℕ → ℚ) (n : ℕ) (hn : 1 ≤ n)
    (hS : (proba_error pe n).sum ≠ 0) :
    range_sum (fun i => pe n i / (proba_error pe n).sum) 0 (n - 1) = 1 := by
  unfold range_sum
  rw [show n - 1 + 1 - 0 = n by omega, ← List.range_eq_range']
  rw [list_sum_map_div]
  exact div_self (by simpa [proba_error] using hS)

theorem filterMap_all_some {α β : Type _} (g : α → Option β) :
    ∀ l : List α, (∀ x ∈ l, (g x).isSome) →
      (l.filterMap g).length = l.length ∧
      ∀ (k : ℕ) (hk1 : k < l.length) (hk2 : k < (l.filterMap g).length),
        g (l.get ⟨k, hk1⟩) = some ((l.filterMap g).get ⟨k, hk2⟩) := by
  intro l
  induction l with
  | nil => exact fun _ => ⟨rfl, fun k hk1 => absurd hk1 (by simp)⟩
  | cons a l ih =>
    intro hall
    obtain ⟨b, hb⟩ := Option.isSome_iff_exists.mp (hall a (by simp))
    have hfm : (a :: l).filterMap g = b :: l.filterMap g := by
      simp [List.filterMap_cons, hb]
    obtain ⟨ihlen, ihget⟩ := ih (fun x hx => hall x (by simp [hx]))
    refine ⟨by simp [hfm, ihlen], ?_⟩
    intro k hk1 hk2
    match k with
    | 0 => simpa [hfm] using hb
    | k + 1 =>
      have hk1l : k < l.length := by simpa using hk1
      have hk2l : k < (l.filterMap g).length := by
        simp only [hfm, List.length_cons] at hk2
        omega
      have := ihget k hk1l hk2l
      simpa [hfm] using this

theorem norm_cumulative_eq_range_sum (pe : ℕ → ℕ → ℚ) (n i : ℕ) :
    norm_cumulative pe n i =
      range_sum (fun m => pe n m / (proba_error pe n).sum) 0 i := by
  unfold norm_cumulative range_sum
  rw [List.range_eq_range', Nat.sub_zero]

/-- C3: with window size above the k-mer size (and no manual threshold, no memoisation
file, pattern at least the window, non-negative probability masses with positive totals,
and `tau ≤ 1`), the table has one entry per minimizer count `n` from
`minimal_number_of_minimizers` to `maximal_number_of_minimizers` inclusive — length
`maximal - minimal + 1` — and the entry for `n` (at offset `j`, `n = minimal + j`) is
`n - i` for the smallest `i` whose normalised cumulative error-probability mass reaches
`tau`. -/
theorem precompute_threshold_general_table (pe : ℕ → ℕ → ℚ) (args : SearchArguments)
    (store : MemoStore)
    (hth : args.threshold_set = false)
    (hmemo : do_cerealisation_in store args = none)
    (hkw : args.shape_size < args.window_size)
    (hwp : args.window_size ≤ args.pattern_size)
    (hsum : ∀ n, n ≤ maximal_number_of_minimizers args →
      minimal_number_of_minimizers args ≤ n → 0 < (proba_error pe n).sum)
    (htau : args.tau ≤ 1) :
    (precompute_threshold pe args store).1.length =
      maximal_number_of_minimizers args - minimal_number_of_minimizers args + 1 ∧
    ∀ j < (precompute_threshold pe args store).1.length,
      ∃ i, i < minimal_number_of_minimizers args + j ∧
        args.tau ≤ norm_cumulative pe (minimal_number_of_minimizers args + j) i ∧
        (∀ x < i,
          ¬args.tau ≤ norm_cumulative pe (minimal_number_of_minimizers args + j) x) ∧
        (precompute_threshold pe args store).1.getD j 0 =
          minimal_number_of_minimizers args + j - i := by
  have hfind : List.find? (fun e => decide (e.1 = memoKey args)) store = none := by
    simpa [do_cerealisation_in] using hmemo
  have hne : args.window_size ≠ args.shape_size := Nat.ne_of_gt hkw
  have hres : (precompute_threshold pe args store).1 =
      (List.range' (minimal_number_of_minimizers args)
        (maximal_number_of_minimizers args + 1 - minimal_number_of_minimizers args)).filterMap
        (threshold_for pe args.tau) := by
    simp [precompute_threshold, hth, do_cerealisation_in, hfind, compute_thresholds,
      if_neg hne]
  have h1nmin : 1 ≤ minimal_number_of_minimizers args := by
    unfold minimal_number_of_minimizers
    rw [Nat.one_le_div_iff (by omega)]
    omega
  have hminmax : minimal_number_of_minimizers args ≤ maximal_number_of_minimizers args := by
    have hqb : minimal_number_of_minimizers args *
        (args.window_size - args.shape_size + 1) ≤
        args.pattern_size - args.shape_size + 1 := by
      unfold minimal_number_of_minimizers
      exact Nat.div_mul_le_self _ _
    have h3 : (args.window_size - args.shape_size) ≤
        minimal_number_of_minimizers args * (args.window_size - args.shape_size) :=
      Nat.le_mul_of_pos_left _ h1nmin
    have h4 : minimal_number_of_minimizers args *
        (args.window_size - args.shape_size + 1) =
        minimal_number_of_minimizers args +
          minimal_number_of_minimizers args * (args.window_size - args.shape_size) := by
      ring
    unfold maximal_number_of_minimizers
    omega
  have hsome : ∀ n ∈ List.range' (minimal_number_of_minimizers args)
      (maximal_number_of_minimizers args + 1 - minimal_number_of_minimizers args),
      (threshold_for pe args.tau n).isSome := by
    intro n hn
    obtain ⟨hn1, hn2⟩ := List.mem_range'_1.mp hn
    have hnm : n ≤ maximal_number_of_minimizers args := by omega
    have hn1' : 1 ≤ n := le_trans h1nmin hn1
    have hSpos := hsum n hnm hn1
    unfold threshold_for
    rw [List.range_eq_range', accumulate_break_eq_find]
    rw [Option.isSome_map']
    rw [List.find?_isSome]
    refine ⟨n - 1, ?_, ?_⟩
    · rw [List.mem_range'_1]
      omega
    · rw [decide_eq_true_eq, zero_add, norm_total pe n hn1' (ne_of_gt hSpos)]
      exact htau
  obtain ⟨hlen, hget⟩ := filterMap_all_some (threshold_for pe args.tau) _ hsome
  have hlenr : (precompute_threshold pe args store).1.length =
      maximal_number_of_minimizers args + 1 - minimal_number_of_minimizers args := by
    rw [hres, hlen, List.length_range']
  refine ⟨by omega, ?_⟩
  intro j hj
  have hj2 : j < (List.range' (minimal_number_of_minimizers args)
      (maximal_number_of_minimizers args + 1 - minimal_number_of_minimizers args)).length := by
    rw [List.length_range']
    omega
  have hj3 : j < ((List.range' (minimal_number_of_minimizers args)
      (maximal_number_of_minimizers args + 1 - minimal_number_of_minimizers args)).filterMap
      (threshold_for pe args.tau)).length := by
    rw [hlen, List.length_range']
    omega
  have hgetr : (List.range' (minimal_number_of_minimizers args)
      (maximal_number_of_minimizers args + 1 - minimal_number_of_minimizers args)).get
      ⟨j, hj2⟩ = minimal_number_of_minimizers args + j := by
    simp [List.get_eq_getElem, List.getElem_range'_1]
  have h5 := hget j hj2 hj3
  rw [hgetr] at h5
  rw [threshold_for, List.range_eq_range', accumulate_break_eq_find] at h5
  rw [Option.map_eq_some'] at h5
  obtain ⟨jf, hjf, hmap⟩ := h5
  obtain ⟨hjf0, hjfn, hjfp, hjfmin⟩ := find?_range'_min _ _ _ _ hjf
  rw [decide_eq_true_eq, zero_add] at hjfp
  refine ⟨jf, by omega, ?_, ?_, ?_⟩
  · rw [norm_cumulative_eq_range_sum]
    exact hjfp
  · intro x hx
    have h6 := hjfmin x (Nat.zero_le x) hx
    rw [decide_eq_false_iff_not, zero_add] at h6
    rw [norm_cumulative_eq_range_sum]
    exact h6
  · have hgd : (precompute_threshold pe args store).1.getD j 0 =
        ((List.range' (minimal_number_of_minimizers args)
          (maximal_number_of_minimizers args + 1 - minimal_number_of_minimizers args)).filterMap
          (threshold_for pe args.tau)).get ⟨j, hj3⟩ := by
      rw [hres]
      simp [List.getD_eq_getElem?_getD, List.getElem?_eq_getElem hj3, List.get_eq_getElem]
    rw [hgd, ← hmap]

/-- Witness for C3 at `p = 10`, `w = 5`, `k = 3`, `e = 1`, `tau = 1/2` with unit
probability masses: the table spans `n = 2..6`. -/
theorem precompute_threshold_general_table_witness :
    3 < 5 ∧ 5 ≤ 10 ∧ (1 : ℚ)/2 ≤ 1 ∧
    ((precompute_threshold (fun _ _ => 1) ⟨10, 5, 3, [true], 1, 1/2, false⟩ []).1.length =
      maximal_number_of_minimizers ⟨10, 5, 3, [true], 1, 1/2, false⟩ -
        minimal_number_of_minimizers ⟨10, 5, 3, [true], 1, 1/2, false⟩ + 1 ∧
     ∀ j < (precompute_threshold (fun _ _ => 1)
        ⟨10, 5, 3, [true], 1, 1/2, false⟩ []).1.length,
       ∃ i, i < minimal_number_of_minimizers ⟨10, 5, 3, [true], 1, 1/2, false⟩ + j ∧
         (1 : ℚ)/2 ≤ norm_cumulative (fun _ _ => 1)
           (minimal_number_of_minimizers ⟨10, 5, 3, [true], 1, 1/2, false⟩ + j) i ∧
         (∀ x < i, ¬(1 : ℚ)/2 ≤ norm_cumulative (fun _ _ => 1)
           (minimal_number_of_minimizers ⟨10, 5, 3, [true], 1, 1/2, false⟩ + j) x) ∧
         (precompute_threshold (fun _ _ => 1)
            ⟨10, 5, 3, [true], 1, 1/2, false⟩ []).1.getD j 0 =
           minimal_number_of_minimizers ⟨10, 5, 3, [true], 1, 1/2, false⟩ + j - i) :=
  ⟨by decide, by decide, by norm_num,
    precompute_threshold_general_table (fun _ _ => 1) ⟨10, 5, 3, [true], 1, 1/2, false⟩ []
      rfl rfl (by decide) (by decide)
      (by
        intro n h1 h2
        simp only [maximal_number_of_minimizers, minimal_number_of_minimizers] at h1 h2
        norm_num at h1 h2
        have hn : 0 < n := by omega
        simp [proba_error, List.map_const, List.sum_replicate]
        positivity)
      (by norm_num)⟩

theorem lookup_cons_self (c : ℕ) (pos : ℕ) (v : List ℤ × List ℤ)
    (st : List (ℕ × (List ℤ × List ℤ))) :
    (BuildState.mk c ((pos, v) :: st)).lookup pos = some v := by
  simp [BuildState.lookup]

theorem lookup_cons_ne (c c2 : ℕ) (pos q : ℕ) (v : List ℤ × List ℤ)
    (st : List (ℕ × (List ℤ × List ℤ))) (h : pos ≠ q) :
    (BuildState.mk c ((pos, v) :: st)).lookup q = (BuildState.mk c2 st).lookup q := by
  simp [BuildState.lookup, List.find?_cons_of_neg, h]

theorem lookup_counter_irrel (c c2 : ℕ) (st : List (ℕ × (List ℤ × List ℤ))) (q : ℕ) :
    (BuildState.mk c st).lookup q = (BuildState.mk c2 st).lookup q := rfl

theorem map_range_getD (f : ℕ → ℤ) (n t : ℕ) :
    ((List.range n).map f).getD t 0 = if t < n then f t else 0 := by
  by_cases h : t < n
  · rw [List.getD_eq_getElem?_getD, List.getElem?_map, List.getElem?_range h]
    simp [h]
  · rw [List.getD_eq_getElem?_getD, List.getElem?_map,
      List.getElem?_eq_none (by simpa using Nat.le_of_not_lt h)]
    simp [h]

theorem getD_replicate (n t : ℕ) (v : ℤ) (h : t < n) :
    (List.replicate n v).getD t 0 = v := by
  rw [List.getD_eq_getElem?_getD, List.getElem?_replicate]
  simp [h]

theorem getD_set_self (l : List ℤ) (i : ℕ) (v : ℤ) (h : i < l.length) :
    (l.set i v).getD i 0 = v := by
  rw [List.getD_eq_getElem?_getD, List.getElem?_set_self]
  · simp
  · exact h

theorem getD_set_ne (l : List ℤ) (i j : ℕ) (v : ℤ) (h : i ≠ j) :
    (l.set i v).getD j 0 = l.getD j 0 := by
  rw [List.getD_eq_getElem?_getD, List.getElem?_set_ne h, ← List.getD_eq_getElem?_getD]

theorem update_user_bins_length (fi : List ℤ) (r : LayoutRecord) :
    (update_user_bins fi r).length = fi.length := by
  simp [update_user_bins]

theorem update_user_bins_getD_in (fi : List ℤ) (r : LayoutRecord) (t : ℕ)
    (ht : t < fi.length)
    (hin : r.bin_index ≤ t ∧ t < r.bin_index + r.number_of_bins) :
    (update_user_bins fi r).getD t 0 = (r.user_bin : ℤ) := by
  rw [update_user_bins, map_range_getD, if_pos ht, if_pos hin]

theorem update_user_bins_getD_out (fi : List ℤ) (r : LayoutRecord) (t : ℕ)
    (hout : ¬(r.bin_index ≤ t ∧ t < r.bin_index + r.number_of_bins)) :
    (update_user_bins fi r).getD t 0 = fi.getD t 0 := by
  rw [update_user_bins, map_range_getD]
  by_cases ht : t < fi.length
  · rw [if_pos ht, if_neg hout]
  · rw [if_neg ht, List.getD_eq_getElem?_getD,
      List.getElem?_eq_none (by omega), Option.getD_none]

theorem foldl_update_length (recs : List LayoutRecord) :
    ∀ fi : List ℤ, (recs.foldl update_user_bins fi).length = fi.length := by
  induction recs with
  | nil => intro fi; rfl
  | cons r recs ih => intro fi; rw [List.foldl_cons, ih, update_user_bins_length]

theorem foldl_update_getD_out (recs : List LayoutRecord) :
    ∀ (fi : List ℤ) (t : ℕ),
      (∀ r ∈ recs, ¬(r.bin_index ≤ t ∧ t < r.bin_index + r.number_of_bins)) →
      (recs.foldl update_user_bins fi).getD t 0 = fi.getD t 0 := by
  induction recs with
  | nil => intro fi t _; rfl
  | cons r recs ih =>
    intro fi t h
    rw [List.foldl_cons, ih _ _ (fun q hq => h q (by simp [hq])),
      update_user_bins_getD_out _ _ _ (h r (by simp))]

theorem foldl_update_getD_nonneg (recs : List LayoutRecord) :
    ∀ (fi : List ℤ) (t : ℕ), t < fi.length →
      (∃ r ∈ recs, r.bin_index ≤ t ∧ t < r.bin_index + r.number_of_bins) →
      0 ≤ (recs.foldl update_user_bins fi).getD t 0 := by
  induction recs with
  | nil => intro fi t _ h; simp at h
  | cons r recs ih =>
    intro fi t ht h
    rw [List.foldl_cons]
    by_cases hr : ∃ q ∈ recs, q.bin_index ≤ t ∧ t < q.bin_index + q.number_of_bins
    · exact ih _ _ (by rw [update_user_bins_length]; exact ht) hr
    · have hcov : r.bin_index ≤ t ∧ t < r.bin_index + r.number_of_bins := by
        rcases h with ⟨q, hq, hqc⟩
        rcases List.mem_cons.mp hq with rfl | hq2
        · exact hqc
        · exact absurd ⟨q, hq2, hqc⟩ hr
      rw [foldl_update_getD_out _ _ _ (fun q hq hqc => hr ⟨q, hq, hqc⟩),
        update_user_bins_getD_in _ _ _ ht hcov]
      exact Int.ofNat_nonneg _

/-- The effect of `loop_over_children` on the state and the positions array, given the
per-child build invariant: the counter grows, old entries persist, entries at the
children's parent bins become positions of stored child IBFs, and other entries are
untouched. -/
theorem loop_over_children_ok (children : List (ℕ × BuildNode))
    (hch : ∀ c ∈ children, ∀ s2 : BuildState, StateWF s2 → BuildOK c.2 s2 false) :
    ∀ (ips : List ℤ) (s : BuildState), StateWF s →
      s.counter ≤ (loop_over_children children ips s).2.counter ∧
      StateWF (loop_over_children children ips s).2 ∧
      (∀ l, l < s.counter →
        (loop_over_children children ips s).2.lookup l = s.lookup l) ∧
      (loop_over_children children ips s).1.length = ips.length ∧
      (∀ t, t ∉ children.map Prod.fst →
        (loop_over_children children ips s).1.getD t 0 = ips.getD t 0) ∧
      (∀ t ∈ children.map Prod.fst, t < ips.length →
        ∃ cp : ℕ, (loop_over_children children ips s).1.getD t 0 = (cp : ℤ) ∧
          s.counter ≤ cp ∧ ((loop_over_children children ips s).2.lookup cp).isSome) := by
  induction children with
  | nil =>
    intro ips s hs
    have he : loop_over_children [] ips s = (ips, s) := by
      simp [loop_over_children]
    rw [he]
    exact ⟨le_rfl, hs, fun l _ => rfl, rfl, fun t _ => rfl, fun t ht => absurd ht (by simp)⟩
  | cons c rest ih =>
    obtain ⟨bin, child⟩ := c
    intro ips s hs
    have hok : BuildOK child s false := hch (bin, child) (by simp) s hs
    obtain ⟨hpos, hcnt, hswf, hpres, nextsC, fisC, hlookC, -, -, -⟩ := hok
    have hch2 : ∀ c ∈ rest, ∀ s2 : BuildState, StateWF s2 → BuildOK c.2 s2 false :=
      fun c hc => hch c (by simp [hc])
    obtain ⟨ih1, ih2, ih3, ih4, ih5, ih6⟩ :=
      ih hch2 (ips.set bin ((hierarchical_build child s false).1 : ℤ))
        (hierarchical_build child s false).2 hswf
    have he : loop_over_children ((bin, child) :: rest) ips s =
        loop_over_children rest (ips.set bin ((hierarchical_build child s false).1 : ℤ))
          (hierarchical_build child s false).2 := by
      simp only [loop_over_children]
    rw [he]
    refine ⟨by omega, ih2, ?_, ?_, ?_, ?_⟩
    · intro l hl
      rw [ih3 l (by omega), hpres l hl]
    · rw [ih4, List.length_set]
    · intro t ht
      simp only [List.map_cons, List.mem_cons, not_or] at ht
      rw [ih5 t ht.2, getD_set_ne _ _ _ _ (Ne.symm ht.1)]
    · intro t ht htl
      simp only [List.map_cons, List.mem_cons] at ht
      by_cases htr : t ∈ rest.map Prod.fst
      · obtain ⟨cp, hcp1, hcp2, hcp3⟩ := ih6 t htr (by rw [List.length_set]; exact htl)
        exact ⟨cp, hcp1, by omega, hcp3⟩
      · have hbt : t = bin := by tauto
        subst hbt
        refine ⟨s.counter, ?_, le_rfl, ?_⟩
        · rw [ih5 t htr, hpos, getD_set_self _ _ _ htl]
        · rw [ih3 s.counter (by omega), hlookC]
          rfl

theorem lookup_build_cons_ne (c pos q : ℕ) (v : List ℤ × List ℤ) (s2 : BuildState)
    (h : pos ≠ q) :
    (BuildState.mk c ((pos, v) :: s2.stored)).lookup q = s2.lookup q := by
  rw [lookup_cons_ne c s2.counter pos q v s2.stored h]

theorem hierarchical_build_ok_aux :
    ∀ (k : ℕ) (node : BuildNode), sizeOf node ≤ k → WFtree node →
      ∀ (s : BuildState) (is_root : Bool), StateWF s → BuildOK node s is_root := by
  intro k
  induction k with
  | zero =>
    intro node hsz
    exfalso
    obtain ⟨ntb, mbi, fav, children, recs⟩ := node
    simp at hsz
  | succ k ih =>
    intro node hsz hwf s is_root hs
    obtain ⟨ntb, mbi, fav, children, recs⟩ := node
    cases hwf with
    | mk _ hn hf hc =>
    simp only [BuildNode.children] at hc
    simp only [BuildNode.favourite_child] at hf
    simp only [WFnode, BuildNode.mergeBins, BuildNode.favourite_child, BuildNode.children,
      BuildNode.number_of_technical_bins, BuildNode.remaining_records, BuildNode.isSplit] at hn
    have hsz2 : sizeOf children ≤ k := by
      simp at hsz
      omega
    have hchOK : ∀ c ∈ children, ∀ s2 : BuildState, StateWF s2 → BuildOK c.2 s2 false := by
      intro c hcm s2 hs2
      have h1 : sizeOf c < sizeOf children := List.sizeOf_lt_of_mem hcm
      have hwfc : WFtree c.2 := hc c hcm
      obtain ⟨cb, cn⟩ := c
      have h2 : sizeOf cn ≤ k := by
        simp at h1
        omega
      exact ih cn h2 hwfc s2 false hs2
    cases fav with
    | some fc =>
      obtain ⟨hn1, hn2, hn3, hn4, -⟩ := hn
      simp only [List.singleton_append, BuildNode.max_bin_index] at hn1 hn3 hn4
      have hszfc : sizeOf fc ≤ k := by
        simp at hsz
        omega
      have hwffc : WFtree fc := hf fc rfl
      have hs1 : StateWF (BuildState.mk (s.counter + 1) s.stored) := by
        intro e he
        exact Nat.lt_succ_of_lt (hs e he)
      obtain ⟨hposF, hcntF, hwfF, hpresF, nextsF, fisF, hlookF, -, -, -⟩ :=
        ih fc hszfc hwffc (BuildState.mk (s.counter + 1) s.stored) false hs1
      dsimp only at hposF hcntF hpresF hlookF
      obtain ⟨hl1, hl2, hl3, hl4, hl5, hl6⟩ :=
        loop_over_children_ok children hchOK
          ((List.replicate ntb ((s.counter : ℤ))).set mbi
            (((hierarchical_build fc (BuildState.mk (s.counter + 1) s.stored) false).1 : ℤ)))
          (hierarchical_build fc (BuildState.mk (s.counter + 1) s.stored) false).2 hwfF
      rw [hposF] at hl1 hl2 hl3 hl4 hl5 hl6
      have hb : hierarchical_build (BuildNode.mk ntb mbi (some fc) children recs) s is_root =
          (s.counter,
           BuildState.mk
             (loop_over_children children
               ((List.replicate ntb ((s.counter : ℤ))).set mbi (((s.counter + 1 : ℕ) : ℤ)))
               (hierarchical_build fc (BuildState.mk (s.counter + 1) s.stored) false).2).2.counter
             ((s.counter,
               ((loop_over_children children
                  ((List.replicate ntb ((s.counter : ℤ))).set mbi (((s.counter + 1 : ℕ) : ℤ)))
                  (hierarchical_build fc (BuildState.mk (s.counter + 1) s.stored) false).2).1,
                recs.foldl update_user_bins (List.replicate ntb (-1 : ℤ)))) ::
              (loop_over_children children
                ((List.replicate ntb ((s.counter : ℤ))).set mbi (((s.counter + 1 : ℕ) : ℤ)))
                (hierarchical_build fc (BuildState.mk (s.counter + 1) s.stored) false).2).2.stored)) := by
        simp only [hierarchical_build, hposF]
      unfold BuildOK
      rw [hb]
      set R := hierarchical_build fc (BuildState.mk (s.counter + 1) s.stored) false with hR
      set LP := loop_over_children children
          ((List.replicate ntb ((s.counter : ℤ))).set mbi (((s.counter + 1 : ℕ) : ℤ))) R.2
        with hLP
      set FI := recs.foldl update_user_bins (List.replicate ntb (-1 : ℤ)) with hFI
      refine ⟨rfl, ?_, ?_, ?_, ⟨LP.1, FI, lookup_cons_self _ _ _ _, ?_, ?_, ?_⟩⟩
      · dsimp only
        omega
      · intro e he
        dsimp only at he ⊢
        rcases List.mem_cons.mp he with rfl | he2
        · dsimp only
          omega
        · exact hl2 e he2
      · intro l hl
        rw [lookup_build_cons_ne _ _ _ _ _ (by omega), hl3 l (by omega)]
        exact hpresF l (by omega)
      · rw [hl4, List.length_set, List.length_replicate]
        rfl
      · rw [hFI, foldl_update_length, List.length_replicate]
        rfl
      · intro t ht
        dsimp only [BuildNode.number_of_technical_bins] at ht
        simp only [BuildNode.isSplit, BuildNode.remaining_records]
        by_cases hsp : ∃ r ∈ recs, r.bin_index ≤ t ∧ t < r.bin_index + r.number_of_bins
        · have hnm : ¬(t = mbi ∨ t ∈ children.map Prod.fst) := by
            intro hmem
            exact hn4 t ht ⟨hsp, List.mem_cons.mpr hmem⟩
          push_neg at hnm
          obtain ⟨hnmbi, hnch⟩ := hnm
          have hval : LP.1.getD t 0 = ((s.counter : ℤ)) := by
            rw [hl5 t hnch, getD_set_ne _ _ _ _ (Ne.symm hnmbi), getD_replicate _ _ _ ht]
          have hnn : (0 : ℤ) ≤ FI.getD t 0 := by
            rw [hFI]
            exact foldl_update_getD_nonneg recs _ t (by rw [List.length_replicate]; exact ht) hsp
          exact ⟨iff_of_true hval hsp, iff_of_true hnn hsp, fun hcon => absurd hsp hcon⟩
        · have hmem : t = mbi ∨ t ∈ children.map Prod.fst := by
            rcases hn3 t ht with h | h
            · exact absurd h hsp
            · exact List.mem_cons.mp h
          have hnrec : ∀ r ∈ recs, ¬(r.bin_index ≤ t ∧ t < r.bin_index + r.number_of_bins) :=
            fun r hr hcov => hsp ⟨r, hr, hcov⟩
          have hfi : FI.getD t 0 = -1 := by
            rw [hFI, foldl_update_getD_out _ _ _ hnrec, getD_replicate _ _ _ ht]
          rcases em (t ∈ children.map Prod.fst) with hin | hnin
          · obtain ⟨cp, hcp1, hcp2, hcp3⟩ := hl6 t hin
              (by rw [List.length_set, List.length_replicate]; exact ht)
            have hcpgt : s.counter < cp := by omega
            refine ⟨iff_of_false ?_ hsp, iff_of_false (by rw [hfi]; decide) hsp, ?_⟩
            · rw [hcp1]
              intro hcast
              have := Nat.cast_inj.mp hcast
              omega
            · intro _
              refine ⟨hfi, cp, hcp1, hcpgt, ?_⟩
              rw [lookup_build_cons_ne _ _ _ _ _ (by omega)]
              exact hcp3
          · have htm : t = mbi := by tauto
            subst htm
            have hval : LP.1.getD t 0 = ((s.counter + 1 : ℕ) : ℤ) := by
              rw [hl5 t hnin, getD_set_self _ _ _ (by rw [List.length_replicate]; exact ht)]
            refine ⟨iff_of_false ?_ hsp, iff_of_false (by rw [hfi]; decide) hsp, ?_⟩
            · rw [hval]
              intro hcast
              have := Nat.cast_inj.mp hcast
              omega
            · intro _
              refine ⟨hfi, s.counter + 1, hval, by omega, ?_⟩
              rw [lookup_build_cons_ne _ _ _ _ _ (by omega), hl3 (s.counter + 1) (by omega),
                hlookF]
              rfl
    | none =>
      obtain ⟨hn1, hn2, hn3, hn4, hn5⟩ := hn
      simp only [List.nil_append] at hn1 hn3 hn4
      obtain ⟨r0, rest, rfl⟩ : ∃ r0 rest, recs = r0 :: rest := by
        cases recs with
        | nil => simp at hn5
        | cons a b => exact ⟨a, b, rfl⟩
      have hs1 : StateWF (BuildState.mk (s.counter + 1) s.stored) :=
        fun e he => Nat.lt_succ_of_lt (hs e he)
      obtain ⟨hl1, hl2, hl3, hl4, hl5, hl6⟩ :=
        loop_over_children_ok children hchOK (List.replicate ntb ((s.counter : ℤ)))
          (BuildState.mk (s.counter + 1) s.stored) hs1
      dsimp only at hl1 hl3 hl6
      have hb : hierarchical_build (BuildNode.mk ntb mbi none children (r0 :: rest)) s
          is_root =
          (s.counter,
           BuildState.mk
             (loop_over_children children (List.replicate ntb ((s.counter : ℤ)))
               (BuildState.mk (s.counter + 1) s.stored)).2.counter
             ((s.counter,
               ((loop_over_children children (List.replicate ntb ((s.counter : ℤ)))
                  (BuildState.mk (s.counter + 1) s.stored)).1,
                (r0 :: rest).foldl update_user_bins (List.replicate ntb (-1 : ℤ)))) ::
              (loop_over_children children (List.replicate ntb ((s.counter : ℤ)))
                (BuildState.mk (s.counter + 1) s.stored)).2.stored)) := by
        simp only [hierarchical_build, List.headD_cons, List.drop_succ_cons, List.drop_zero,
          List.foldl_cons]
      unfold BuildOK
      rw [hb]
      set LP := loop_over_children children (List.replicate ntb ((s.counter : ℤ)))
          (BuildState.mk (s.counter + 1) s.stored) with hLP
      set FI := (r0 :: rest).foldl update_user_bins (List.replicate ntb (-1 : ℤ)) with hFI
      refine ⟨rfl, ?_, ?_, ?_, ⟨LP.1, FI, lookup_cons_self _ _ _ _, ?_, ?_, ?_⟩⟩
      · dsimp only
        omega
      · intro e he
        dsimp only at he ⊢
        rcases List.mem_cons.mp he with rfl | he2
        · dsimp only
          omega
        · exact hl2 e he2
      · intro l hl
        rw [lookup_build_cons_ne _ _ _ _ _ (by omega), hl3 l (by omega)]
        rfl
      · rw [hl4, List.length_replicate]
        rfl
      · rw [hFI, foldl_update_length, List.length_replicate]
        rfl
      · intro t ht
        dsimp only [BuildNode.number_of_technical_bins] at ht
        simp only [BuildNode.isSplit, BuildNode.remaining_records]
        by_cases hsp : ∃ r ∈ r0 :: rest, r.bin_index ≤ t ∧ t < r.bin_index + r.number_of_bins
        · have hnch : t ∉ children.map Prod.fst := fun hmem => hn4 t ht ⟨hsp, hmem⟩
          have hval : LP.1.getD t 0 = ((s.counter : ℤ)) := by
            rw [hl5 t hnch, getD_replicate _ _ _ ht]
          have hnn : (0 : ℤ) ≤ FI.getD t 0 := by
            rw [hFI]
            exact foldl_update_getD_nonneg _ _ t (by rw [List.length_replicate]; exact ht) hsp
          exact ⟨iff_of_true hval hsp, iff_of_true hnn hsp, fun hcon => absurd hsp hcon⟩
        · have hin : t ∈ children.map Prod.fst := by
            rcases hn3 t ht with h | h
            · exact absurd h hsp
            · exact h
          have hnrec :
              ∀ r ∈ r0 :: rest, ¬(r.bin_index ≤ t ∧ t < r.bin_index + r.number_of_bins) :=
            fun r hr hcov => hsp ⟨r, hr, hcov⟩
          have hfi : FI.getD t 0 = -1 := by
            rw [hFI, foldl_update_getD_out _ _ _ hnrec, getD_replicate _ _ _ ht]
          obtain ⟨cp, hcp1, hcp2, hcp3⟩ := hl6 t hin (by rw [List.length_replicate]; exact ht)
          have hcpgt : s.counter < cp := by omega
          refine ⟨iff_of_false ?_ hsp, iff_of_false (by rw [hfi]; decide) hsp, ?_⟩
          · rw [hcp1]
            intro hcast
            have := Nat.cast_inj.mp hcast
            omega
          · intro _
            refine ⟨hfi, cp, hcp1, hcpgt, ?_⟩
            rw [lookup_build_cons_ne _ _ _ _ _ (by omega)]
            exact hcp3

/-- C9: after `hierarchical_build` finishes the IBF it allocates (at position
`l = s.counter`), the stored arrays satisfy, for every technical bin `t` of that IBF:
`next_ibf_id[l][t] = l` iff `t` is a leaf (split) bin, and otherwise it is the larger
position of a stored child IBF built below it; the user-bin index of `t` is `≥ 0` iff
`t` is a leaf, remaining `-1` (its initialisation value) for merge bins; and the root
invocation, starting from counter 0, allocates position 0. -/
theorem hierarchical_build_invariants (node : BuildNode) (s : BuildState) (is_root : Bool)
    (hwf : WFtree node) (hs : StateWF s) :
    (hierarchical_build node s is_root).1 = s.counter ∧
    (s.counter = 0 → (hierarchical_build node s is_root).1 = 0) ∧
    ∃ nexts fis,
      (hierarchical_build node s is_root).2.lookup s.counter = some (nexts, fis) ∧
      nexts.length = node.number_of_technical_bins ∧
      fis.length = node.number_of_technical_bins ∧
      ∀ t < node.number_of_technical_bins,
        (nexts.getD t 0 = (s.counter : ℤ) ↔ node.isSplit t) ∧
        ((0 : ℤ) ≤ fis.getD t 0 ↔ node.isSplit t) ∧
        (¬node.isSplit t →
          fis.getD t 0 = -1 ∧
          ∃ cp : ℕ, nexts.getD t 0 = (cp : ℤ) ∧ s.counter < cp ∧
            ((hierarchical_build node s is_root).2.lookup cp).isSome) := by
  obtain ⟨h1, -, -, -, h5⟩ :=
    hierarchical_build_ok_aux (sizeOf node) node le_rfl hwf s is_root hs
  exact ⟨h1, fun h0 => h0 ▸ h1, h5⟩

theorem sample_root_wf : WFtree sample_root := by
  refine WFtree.mk _ (by decide)
    (fun fc h => by simp [BuildNode.favourite_child, sample_root] at h) ?_
  intro c hc
  simp only [BuildNode.children, sample_root] at hc
  simp at hc
  rcases hc with h | h <;> subst h <;>
    exact WFtree.mk _ (by decide)
      (fun fc h => by simp [BuildNode.favourite_child, sample_child] at h)
      (fun c hc => by simp [BuildNode.children, sample_child] at hc)

/-- Witness for C9 on the concrete two-level layout tree, built from a fresh state. -/
theorem hierarchical_build_invariants_witness :
    WFtree sample_root ∧ StateWF (BuildState.mk 0 []) ∧
    ((hierarchical_build sample_root (BuildState.mk 0 []) true).1 =
        (BuildState.mk 0 []).counter ∧
     ((BuildState.mk 0 []).counter = 0 →
        (hierarchical_build sample_root (BuildState.mk 0 []) true).1 = 0) ∧
     ∃ nexts fis,
       (hierarchical_build sample_root (BuildState.mk 0 []) true).2.lookup
           (BuildState.mk 0 []).counter = some (nexts, fis) ∧
       nexts.length = sample_root.number_of_technical_bins ∧
       fis.length = sample_root.number_of_technical_bins ∧
       ∀ t < sample_root.number_of_technical_bins,
         (nexts.getD t 0 = ((BuildState.mk 0 []).counter : ℤ) ↔ sample_root.isSplit t) ∧
         ((0 : ℤ) ≤ fis.getD t 0 ↔ sample_root.isSplit t) ∧
         (¬sample_root.isSplit t →
           fis.getD t 0 = -1 ∧
           ∃ cp : ℕ, nexts.getD t 0 = (cp : ℤ) ∧ (BuildState.mk 0 []).counter < cp ∧
             ((hierarchical_build sample_root (BuildState.mk 0 []) true).2.lookup
               cp).isSome)) :=
  ⟨sample_root_wf, by decide,
    hierarchical_build_invariants sample_root (BuildState.mk 0 []) true sample_root_wf
      (by decide)⟩

end Raptor
